import Mathlib

set_option linter.unusedVariables false

/-!
Verification of the OS-MultiThread-KernelModule repository.

Shallow embedding of the two C sources:
* `src/MT_matrix.c` — multi-threaded matrix multiplication: each worker thread
  forks a child that computes a contiguous row range and streams each cell
  result through a pipe as a decimal string; the parent stores the decoded
  values into the shared result matrix, then performs a mutex-guarded
  write-then-read transaction against `/proc/thread_info`.
* `src/My_proc.c` — the kernel module: `procfile_write` copies (at most
  `PROCFS_MAX_SIZE` bytes of) the user buffer, null-terminates it, parses it
  as a decimal pid with `kstrtoint`, scans the task list and on a match
  overwrites the buffer with a formatted record; `procfile_read` serves the
  buffer content back.

C `int` arithmetic is modelled by `Int` (inputs are small per the matrix file
format, and signed overflow is undefined behaviour in the source), `size_t`
counters by `Nat`.
-/

namespace MT

/-! ### Decimal encoding and decoding (sprintf "%d" / atoi / kstrtoint) -/

/-- The NUL byte used by the C sources to terminate strings. -/
def nullChar : Char := '\x00'

/-- C `isspace` on the characters `atoi` skips. -/
def isSpaceC (c : Char) : Bool :=
  c == ' ' || c == '\t' || c == '\n' || c == '\x0b' || c == '\x0c' || c == '\r'

/-- The digit-consuming loop of C `atoi`: accumulate base-10 digits starting
from `acc`, stopping at the first non-digit character. -/
def digitsToNat : List Char → Nat → Nat
  | [], acc => acc
  | c :: cs, acc =>
    if c.isDigit then digitsToNat cs (acc * 10 + (c.toNat - 48)) else acc

/-- C `atoi` as used by the parent in `thread()` (MT_matrix.c line 153):
skip leading whitespace, consume an optional sign, then leading digits. -/
def atoiChars : List Char → Int
  | [] => 0
  | c :: cs =>
    if isSpaceC c then atoiChars cs
    else if c = '-' then -(digitsToNat cs 0 : Int)
    else if c = '+' then (digitsToNat cs 0 : Int)
    else (digitsToNat (c :: cs) 0 : Int)

/-- Decimal digits of `n`, least-significant first, with explicit fuel
(`fuel ≥ n` suffices since `n` has at most `n` digits for `n ≥ 1`). -/
def natDigitsAux : Nat → Nat → List Char
  | 0, _ => []
  | fuel + 1, n =>
    if n = 0 then [] else Nat.digitChar (n % 10) :: natDigitsAux fuel (n / 10)

/-- `sprintf "%u"`-style rendering of a natural number. -/
def natToChars (n : Nat) : List Char :=
  if n = 0 then ['0'] else (natDigitsAux n n).reverse

/-- `sprintf "%d"`-style rendering of an integer, as written to the pipe by
the child in `thread()` (MT_matrix.c line 140). -/
def intToChars (z : Int) : List Char :=
  if z < 0 then '-' :: natToChars z.natAbs else natToChars z.toNat

/-- Value of a most-significant-first digit-character list. -/
def charsToNat (l : List Char) : Nat :=
  l.foldl (fun a c => a * 10 + (c.toNat - 48)) 0

/-- Value of a least-significant-first digit-character list
(proof-side companion of `digitsToNat`). -/
def valChars : List Char → Nat
  | [] => 0
  | c :: cs => (c.toNat - 48) + 10 * valChars cs

/-- The digit/terminator part of kernel `kstrtoint` (base 10): the string must
be one or more digits, optionally followed by a single trailing newline. -/
def kstrtoNat (l : List Char) : Option Nat :=
  let ds := l.takeWhile Char.isDigit
  let rest := l.dropWhile Char.isDigit
  if ds = [] then none
  else if rest = [] ∨ rest = ['\n'] then some (charsToNat ds)
  else none

/-- Kernel `kstrtoint(s, 10, &pid)` (My_proc.c line 123): optional sign, one
or more digits, optional single trailing newline, value within C `int`. -/
def kstrtoint (s : List Char) : Option Int :=
  match s with
  | '-' :: rest =>
    match kstrtoNat rest with
    | none => none
    | some v => if v ≤ 2147483648 then some (-(v : Int)) else none
  | '+' :: rest =>
    match kstrtoNat rest with
    | none => none
    | some v => if v ≤ 2147483647 then some (v : Int) else none
  | rest =>
    match kstrtoNat rest with
    | none => none
    | some v => if v ≤ 2147483647 then some (v : Int) else none

/-! ### Matrices, tasks and the multiply pipeline (MT_matrix.c) -/

/-- `struct Matrix` from include/matrix.h; `data` is total for simplicity,
only indices below `row`/`col` are ever read. -/
structure Matrix where
  row : Nat
  col : Nat
  data : Nat → Nat → Int

/-- `struct Task` from include/matrix.h: a half-open row range. -/
structure Task where
  start_row : Nat
  end_row : Nat
deriving DecidableEq

/-- Number of rows in a task's range. -/
def taskSize (t : Task) : Nat := t.end_row - t.start_row

/-- Row `r` lies in the task's half-open range. -/
def inTask (t : Task) (r : Nat) : Prop := t.start_row ≤ r ∧ r < t.end_row

/-- The child's inner accumulation loop (MT_matrix.c lines 134-138):
`sum = 0; for (i = 0; i < m1->col; i++) sum += m1[r][i] * m2[i][c];`. -/
def dotFrom (m1 m2 : Matrix) (r c : Nat) : Int :=
  (List.range m1.col).foldl (fun sum i => sum + m1.data r i * m2.data i c) 0

/-- The standard mathematical product entry, the specification-side value the
computed result is compared against. -/
def mathProd (m1 m2 : Matrix) (r c : Nat) : Int :=
  ∑ i in Finset.range m1.col, m1.data r i * m2.data i c

/-- The row-major `(r, c)` iteration order of both nested loops in `thread()`
(child lines 132-142, parent lines 150-155). -/
def cellsOf (t : Task) (cols : Nat) : List (Nat × Nat) :=
  (List.range' t.start_row (t.end_row - t.start_row)).flatMap fun r =>
    (List.range cols).map fun c => (r, c)

/-- The sequence of pipe messages the child writes: one `sprintf "%d"` image
per cell of its range, in row-major order (MT_matrix.c lines 132-142). -/
def childMessages (m1 m2 : Matrix) (t : Task) : List (List Char) :=
  (cellsOf t m2.col).map fun rc => intToChars (dotFrom m1 m2 rc.1 rc.2)

/-- Point update of the result matrix store `m->data[r][c] = v`. -/
def updateFn (d : Nat → Nat → Int) (r c : Nat) (v : Int) : Nat → Nat → Int :=
  fun r' c' => if r' = r ∧ c' = c then v else d r' c'

/-- The parent's receive loop (MT_matrix.c lines 150-155): pair each cell of
the range, in row-major order, with the pipe message of the same index, and
store `atoi(message)` at that cell. Each read consumes exactly one write
because the pipe is a FIFO and every message is a fixed `BUF_SIZE` block. -/
def runTask (m1 m2 : Matrix) (t : Task) (d : Nat → Nat → Int) : Nat → Nat → Int :=
  ((cellsOf t m2.col).zip (childMessages m1 m2 t)).foldl
    (fun d p => updateFn d p.1.1 p.1.2 (atoiChars p.2)) d

/-- `t[n].end_row` as assigned by the partition loop (MT_matrix.c lines
284-287): the first `rows % n_thread` tasks get one extra row. -/
def taskEndOf (rows nW start n : Nat) : Nat :=
  if n < rows % nW then start + rows / nW + 1 else start + rows / nW

/-- The partition loop of `multiply()` (MT_matrix.c lines 267-290), unrolled
over the remaining worker count `k`, current index `n`, current `start_row`. -/
def buildTasksFrom (rows nW : Nat) : Nat → Nat → Nat → List Task
  | _, _, 0 => []
  | n, start, k + 1 =>
    Task.mk start (taskEndOf rows nW start n) ::
      buildTasksFrom rows nW (n + 1) (taskEndOf rows nW start n) k

/-- All `n_workers` tasks produced by the partition loop. -/
def buildTasks (rows nW : Nat) : List Task := buildTasksFrom rows nW 0 0 nW

/-- Closed form of the `start_row` of task `n`
(`q*n` full shares plus one extra row per earlier remainder task). -/
def startF (rows nW n : Nat) : Nat := n * (rows / nW) + min n (rows % nW)

/-- The `i`-th task of the partition (defaulting to an empty task). -/
def taskAt (rows nW i : Nat) : Task := (buildTasks rows nW).getD i (Task.mk 0 0)

/-- The intended outcome of the worker fold: every worker runs with its fully
assigned Task — i.e. the copy `Task t = *(Task *) param` in `thread()` happens
only after the parent's `t[n].end_row` store — linearized, which is sound in
that case because the tasks write pairwise disjoint row ranges of the shared
result store; `init` is the arbitrary content of the freshly `malloc`-ed
result matrix. The program as written does NOT guarantee this ordering: see
`observedTask` / `multiplyDataRacy` for the race (claim C1). -/
def multiplyData (m1 m2 : Matrix) (nW : Nat) (init : Nat → Nat → Int) : Nat → Nat → Int :=
  (buildTasks m1.row nW).foldl (fun d t => runTask m1 m2 t d) init

/-- The race in `multiply()`: `pthread_create(&tids[n], NULL, thread, &t[n])`
(MT_matrix.c line 277) launches worker `n` before `t[n].end_row` is stored
(lines 284-287), while `thread()` copies `*param` with no synchronization
(line 110). `obs n = none` models a worker whose copy happened after the
store (it observes the assigned end row); `obs n = some v` models a worker
whose copy happened first, observing the indeterminate prior contents `v` of
the freshly `malloc`-ed field. `t[n].start_row` is stored before
`pthread_create` (line 274), so it is always observed correctly. -/
def observedTask (rows nW : Nat) (obs : Nat → Option Nat) (n : Nat) : Task :=
  match obs n with
  | none => Task.mk (startF rows nW n) (startF rows nW (n + 1))
  | some v => Task.mk (startF rows nW n) v

/-- `multiply()`'s worker fold with the racy Task observations made explicit:
worker `n` computes and stores exactly the cells of the row range it
observed (both the forked child and the collecting parent in `thread()` use
the same single pre-fork copy of the Task). -/
def multiplyDataRacy (m1 m2 : Matrix) (nW : Nat) (obs : Nat → Option Nat)
    (init : Nat → Nat → Int) : Nat → Nat → Int :=
  (List.range nW).foldl (fun d n => runTask m1 m2 (observedTask m1.row nW obs n) d) init

/-- A schedule in which every worker's copy of its Task precedes the parent's
`end_row` store and the fresh `malloc` memory reads as 0. -/
def raceObs : Nat → Option Nat := fun _ => some 0

/-- Observable control-flow outcome of one `multiply()` call
(MT_matrix.c lines 226-302). `dimError` records the
"Cannot do matrix multiplication." early return. -/
structure RunTrace where
  dimError : Bool
  resultAllocated : Bool
  workersCreated : Nat
  wroteResult : Bool
  result : Option (Nat → Nat → Int)

/-- `multiply()`: dimension check first; on mismatch it returns before the
result matrix is allocated, before any thread is created and before
`write_result()`; otherwise it allocates, launches `n_thread` workers, joins
them and writes the result (allocation failures are not modelled: `malloc`
is assumed to succeed; the `result` field records the intended race-free
outcome `multiplyData` — see `multiplyDataRacy` for what the race permits). -/
def multiplyRun (m1 m2 : Matrix) (nW : Nat) (init : Nat → Nat → Int) : RunTrace :=
  if m1.col ≠ m2.row then
    { dimError := true, resultAllocated := false, workersCreated := 0,
      wroteResult := false, result := none }
  else
    { dimError := false, resultAllocated := true, workersCreated := nW,
      wroteResult := true, result := some (multiplyData m1 m2 nW init) }

/-! ### The proc file handler (My_proc.c) -/

/-- `PROCFS_MAX_SIZE` from include/proc_module.h. -/
def PROCFS_MAX_SIZE : Nat := 1024

/-- The fields of a `task_struct` the handler reads. -/
structure TaskEntry where
  pid : Int
  utime : Nat
  nvcsw : Nat
  nivcsw : Nat
deriving DecidableEq

/-- The formatted record `sprintf`-ed into the buffer on a pid match
(My_proc.c lines 146-148): utime is divided by 1000 twice (ns to ms) and the
reported switch count is `nvcsw + nivcsw`. -/
def recordOf (e : TaskEntry) : List Char :=
  "ThreadID:".data ++ intToChars e.pid ++ " Time:".data ++
    natToChars (e.utime / 1000 / 1000) ++ "(ms) context switch times:".data ++
    natToChars (e.nvcsw + e.nivcsw) ++ ['\n']

/-- The module's mutable state: `procfs_buffer` (as a total byte store; the
code only ever touches indices below `PROCFS_MAX_SIZE`, which is claim C7)
and `procfs_buffer_size`. -/
structure ProcState where
  buf : Nat → Char
  size : Nat

/-- `procfs_buffer_size` after the clamp at My_proc.c lines 104-106. -/
def acceptedSize (len : Nat) : Nat := min len PROCFS_MAX_SIZE

/-- `copy_from_user`/`memcpy` of `n` bytes of `input` over `buf`. -/
def overlay (buf : Nat → Char) (input : List Char) (n : Nat) : Nat → Char :=
  fun i => if i < n then input.getD i ' ' else buf i

/-- Single byte store `buf[i] = c`. -/
def setByte (buf : Nat → Char) (i : Nat) (c : Char) : Nat → Char :=
  fun j => if j = i then c else buf j

/-- The buffer after the copy-in and the null-termination
`procfs_buffer[procfs_buffer_size & (PROCFS_MAX_SIZE - 1)] = '\0'`
(My_proc.c lines 112-116); `& (PROCFS_MAX_SIZE - 1)` is `% PROCFS_MAX_SIZE`
because `PROCFS_MAX_SIZE` is a power of two. -/
def writeBuf (buf : Nat → Char) (input : List Char) : Nat → Char :=
  setByte (overlay buf input (acceptedSize input.length))
    (acceptedSize input.length % PROCFS_MAX_SIZE) nullChar

/-- The C string stored in the buffer: bytes from index `i` up to the first
NUL, with fuel (a NUL is always placed within the first `PROCFS_MAX_SIZE`
bytes by `writeBuf`). -/
def cstr (buf : Nat → Char) : Nat → Nat → List Char
  | 0, _ => []
  | fuel + 1, i => if buf i = nullChar then [] else buf i :: cstr buf fuel (i + 1)

/-- The C string at the start of the buffer. -/
def bufCString (buf : Nat → Char) : List Char := cstr buf PROCFS_MAX_SIZE 0

/-- Result of one `procfile_write` call: new module state, new file offset,
and the `ssize_t` return value. -/
structure WriteResult where
  state : ProcState
  newOff : Int
  ret : Int

/-- `procfile_write` (My_proc.c lines 97-155): clamp the length, copy the
user bytes in, null-terminate, advance the offset; `kstrtoint` failure
returns 0; otherwise scan the task list for the pid; on a match overwrite
the buffer with the formatted record (plus its terminating NUL) and set the
size to the record length; on no match leave buffer and size as accepted. -/
def procfile_write (tbl : List TaskEntry) (st : ProcState) (input : List Char)
    (off : Int) : WriteResult :=
  match kstrtoint (bufCString (writeBuf st.buf input)) with
  | none =>
    WriteResult.mk (ProcState.mk (writeBuf st.buf input) (acceptedSize input.length))
      (off + (acceptedSize input.length : Int)) 0
  | some pid =>
    match tbl.find? (fun e => e.pid == pid) with
    | none =>
      WriteResult.mk (ProcState.mk (writeBuf st.buf input) (acceptedSize input.length))
        (off + (acceptedSize input.length : Int)) (acceptedSize input.length : Int)
    | some e =>
      WriteResult.mk
        (ProcState.mk
          (overlay (writeBuf st.buf input) (recordOf e ++ [nullChar]) ((recordOf e).length + 1))
          (recordOf e).length)
        (off + (acceptedSize input.length : Int)) ((recordOf e).length : Int)

/-- Result of one `procfile_read` call: the bytes copied to user space, the
new offset, and the return value. -/
structure ReadResult where
  bytes : List Char
  newOff : Int
  ret : Int

/-- `procfile_read` (My_proc.c lines 54-73): end-of-data when the offset has
reached `procfs_buffer_size`, else copy `procfs_buffer_size` bytes from the
start of the buffer and advance the offset (`copy_to_user` assumed to
succeed). -/
def procfile_read (st : ProcState) (off : Int) : ReadResult :=
  if off ≥ (st.size : Int) then ReadResult.mk [] off 0
  else ReadResult.mk ((List.range st.size).map st.buf) (off + (st.size : Int)) (st.size : Int)

/-! ### Elapsed-time measurement (MT_matrix.c lines 270, 298-299) -/

/-- `struct timespec`; a well-formed value has `0 ≤ tv_nsec < 10^9`. -/
structure Timespec where
  tv_sec : Int
  tv_nsec : Int
deriving DecidableEq

/-- `totalTime = endTime.tv_sec - startTime.tv_sec` (MT_matrix.c line 299). -/
def totalTimeOf (s e : Timespec) : Int := e.tv_sec - s.tv_sec

/-- The true elapsed duration between the two clock readings, in nanoseconds. -/
def elapsedNs (s e : Timespec) : Int :=
  (e.tv_sec - s.tv_sec) * 1000000000 + (e.tv_nsec - s.tv_nsec)

/-- The true elapsed time rounded down to whole seconds. -/
def floorElapsedSec (s e : Timespec) : Int := elapsedNs s e / 1000000000

/-! ### The mutex-guarded telemetry transaction (MT_matrix.c lines 165-180)

Each of the `k` worker threads runs, on the single shared channel:
`pthread_mutex_lock; write(pid text); read(response); pthread_mutex_unlock`.
The handler is assumed to find a match for every identifier (claim C3's
premise), so `resp w` is the record it produces for worker `w`'s pid; the
write step overwrites the single shared buffer with `resp w` and the read
step returns the current buffer. -/

/-- Where a worker is inside its telemetry transaction. -/
inductive Phase where
  | start
  | locked
  | written
  | readDone
  | done
deriving DecidableEq

/-- Global state of the channel: the mutex owner, the single shared buffer,
each worker's phase and the response each worker's `read` returned. -/
structure ChState (k : Nat) where
  lock : Option (Fin k)
  buf : List Char
  phase : Fin k → Phase
  readv : Fin k → List Char

/-- One atomic step of worker `w`: acquire the mutex, or (holding it) write
its identifier — the handler immediately overwrites the buffer with the
matching record `resp w` — or read the buffer, or release the mutex.
`none` means the step is not enabled (the mutex is held by someone else). -/
def chStep {k : Nat} (resp : Fin k → List Char) (s : ChState k) (w : Fin k) :
    Option (ChState k) :=
  if s.phase w = Phase.start then
    (if s.lock = none then
      some { s with lock := some w, phase := Function.update s.phase w Phase.locked }
    else none)
  else if s.phase w = Phase.locked then
    (if s.lock = some w then
      some { s with buf := resp w, phase := Function.update s.phase w Phase.written }
    else none)
  else if s.phase w = Phase.written then
    (if s.lock = some w then
      some { s with readv := Function.update s.readv w s.buf,
                    phase := Function.update s.phase w Phase.readDone }
    else none)
  else if s.phase w = Phase.readDone then
    (if s.lock = some w then
      some { s with lock := none, phase := Function.update s.phase w Phase.done }
    else none)
  else none

/-- Run a schedule (an arbitrary interleaving of worker steps). -/
def chRun {k : Nat} (resp : Fin k → List Char) : ChState k → List (Fin k) → Option (ChState k)
  | s, [] => some s
  | s, w :: ws =>
    match chStep resp s w with
    | none => none
    | some s2 => chRun resp s2 ws

/-- Initial channel state: mutex free, all workers before their transaction. -/
def chInit (k : Nat) (buf0 : List Char) : ChState k :=
  ChState.mk none buf0 (fun _ => Phase.start) (fun _ => [])

/-- Inductive invariant: a worker inside its transaction owns the mutex;
while a worker has written and not yet read, the buffer holds its own
response; a worker past its read has read its own response. -/
def chInv {k : Nat} (resp : Fin k → List Char) (s : ChState k) : Prop :=
  (∀ w, (s.phase w = Phase.locked ∨ s.phase w = Phase.written ∨
         s.phase w = Phase.readDone) → s.lock = some w) ∧
  (∀ w, s.phase w = Phase.written → s.buf = resp w) ∧
  (∀ w, (s.phase w = Phase.readDone ∨ s.phase w = Phase.done) → s.readv w = resp w)

/-! ### Concrete inputs used by the witnesses -/

/-- Scenario A first operand, `[[1,2],[3,4]]`. -/
def m1A : Matrix :=
  Matrix.mk 2 2 (fun r c => if r = 0 then (if c = 0 then 1 else 2) else if c = 0 then 3 else 4)

/-- Scenario A second operand, `[[5,6],[7,8]]`. -/
def m2A : Matrix :=
  Matrix.mk 2 2 (fun r c => if r = 0 then (if c = 0 then 5 else 6) else if c = 0 then 7 else 8)

/-- Scenario C first operand: 2 rows, 3 cols. -/
def m1C : Matrix := Matrix.mk 2 3 (fun _ _ => 1)

/-- Scenario C second operand: 2 rows, 2 cols (mismatch with `m1C.col = 3`). -/
def m2C : Matrix := Matrix.mk 2 2 (fun _ _ => 1)

/-- Arbitrary initial content of the freshly allocated result store. -/
def dInit : Nat → Nat → Int := fun _ _ => 0

/-- Module state before a write: blank buffer, size 0. -/
def procSt0 : ProcState := ProcState.mk (fun _ => ' ') 0

/-- A well-formed pid write, `"99\n"`, matching no table entry. -/
def chars99 : List Char := ['9', '9', '\n']

/-- A write that does not parse as a decimal identifier. -/
def charsAbc : List Char := ['a', 'b', 'c']

/-- A table entry for pid 42 with 5 s of utime and 3 + 4 context switches. -/
def entry42 : TaskEntry := TaskEntry.mk 42 5000000000 3 4

/-- The pid write `"42\n"` matching `entry42`. -/
def chars42 : List Char := ['4', '2', '\n']

/-- An oversized write: 1500 copies of the digit 7. -/
def bigInput : List Char := List.replicate 1500 '7'

/-- Clock start 0.9 s. -/
def tsA : Timespec := Timespec.mk 0 900000000

/-- Clock end 1.1 s: 0.2 s after `tsA`, yet the seconds fields differ by 1. -/
def tsB : Timespec := Timespec.mk 1 100000000

/-- Clock start 0 s + 100 ns. -/
def tsC : Timespec := Timespec.mk 0 100

/-- Clock end 5 s + 50 ns. -/
def tsD : Timespec := Timespec.mk 5 50

/-- A one-worker pid assignment for the channel witness. -/
def pidsEx : Fin 1 → Int := fun _ => 7

/-- A handler-record function for the channel witness. -/
def handlerEx : Int → List Char := fun _ => ['A']

/-- A complete one-worker schedule: acquire, write, read, release. -/
def traceEx : List (Fin 1) := [0, 0, 0, 0]

/-- The channel state reached by `traceEx`. -/
def chSEx : ChState 1 :=
  (chRun (fun v => handlerEx (pidsEx v)) (chInit 1 []) traceEx).getD (chInit 1 [])

/-! ### Decimal round trip: `atoi (sprintf "%d" z) = z` -/

lemma digitChar_isDigit : ∀ d : Nat, d < 10 → (Nat.digitChar d).isDigit = true := by decide

lemma digitChar_toNat48 : ∀ d : Nat, d < 10 → (Nat.digitChar d).toNat - 48 = d := by decide

lemma natDigitsAux_digits : ∀ fuel n : Nat, ∀ c ∈ natDigitsAux fuel n, c.isDigit = true := by
  intro fuel
  induction fuel with
  | zero => intro n c hc; simp [natDigitsAux] at hc
  | succ f ih =>
    intro n c hc
    rw [natDigitsAux] at hc
    by_cases h0 : n = 0
    · rw [if_pos h0] at hc; simp at hc
    · rw [if_neg h0] at hc
      rcases List.mem_cons.mp hc with h | h
      · subst h; exact digitChar_isDigit _ (Nat.mod_lt _ (by norm_num))
      · exact ih (n / 10) c h

lemma valChars_natDigitsAux : ∀ fuel n : Nat, n ≤ fuel → valChars (natDigitsAux fuel n) = n := by
  intro fuel
  induction fuel with
  | zero => intro n hn; rw [natDigitsAux, valChars]; omega
  | succ f ih =>
    intro n hn
    by_cases h0 : n = 0
    · subst h0; rw [natDigitsAux, if_pos rfl, valChars]
    · rw [natDigitsAux, if_neg h0, valChars]
      rw [digitChar_toNat48 _ (Nat.mod_lt _ (by norm_num))]
      have hlt : n / 10 < n := Nat.div_lt_self (Nat.pos_of_ne_zero h0) (by norm_num)
      rw [ih (n / 10) (by omega)]
      omega

lemma digitsToNat_eq_foldl : ∀ (l : List Char) (acc : Nat), (∀ c ∈ l, c.isDigit = true) →
    digitsToNat l acc = l.foldl (fun a c => a * 10 + (c.toNat - 48)) acc := by
  intro l
  induction l with
  | nil => intro acc _; rfl
  | cons c cs ih =>
    intro acc h
    rw [digitsToNat, if_pos (h c (List.mem_cons_self c cs)), List.foldl_cons]
    exact ih _ (fun x hx => h x (List.mem_cons_of_mem c hx))

lemma foldl_reverse_val : ∀ (l : List Char) (acc : Nat),
    l.reverse.foldl (fun a c => a * 10 + (c.toNat - 48)) acc =
      acc * 10 ^ l.length + valChars l := by
  intro l
  induction l with
  | nil => intro acc; simp [valChars]
  | cons c cs ih =>
    intro acc
    rw [List.reverse_cons, List.foldl_append, ih acc]
    simp only [List.foldl_cons, List.foldl_nil, valChars, List.length_cons, pow_succ]
    ring

lemma digitsToNat_natToChars (n : Nat) : digitsToNat (natToChars n) 0 = n := by
  by_cases h0 : n = 0
  · subst h0; decide
  · rw [natToChars, if_neg h0]
    rw [digitsToNat_eq_foldl _ _ (fun c hc => natDigitsAux_digits n n c (List.mem_reverse.mp hc))]
    rw [foldl_reverse_val]
    rw [valChars_natDigitsAux n n le_rfl]
    simp

lemma natToChars_digits (n : Nat) : ∀ c ∈ natToChars n, c.isDigit = true := by
  intro c hc
  by_cases h0 : n = 0
  · subst h0; rw [natToChars, if_pos rfl] at hc; simp at hc; subst hc; decide
  · rw [natToChars, if_neg h0] at hc
    exact natDigitsAux_digits n n c (List.mem_reverse.mp hc)

lemma natToChars_ne_nil (n : Nat) : natToChars n ≠ [] := by
  by_cases h0 : n = 0
  · subst h0; rw [natToChars, if_pos rfl]; simp
  · rw [natToChars, if_neg h0]
    rcases Nat.exists_eq_succ_of_ne_zero h0 with ⟨f, rfl⟩
    rw [natDigitsAux, if_neg (by omega)]
    simp

lemma isDigit_not_special (c : Char) (h : c.isDigit = true) :
    isSpaceC c = false ∧ c ≠ '-' ∧ c ≠ '+' := by
  refine ⟨?_, ?_, ?_⟩
  · cases hb : isSpaceC c with
    | false => rfl
    | true =>
      exfalso
      simp only [isSpaceC, Bool.or_eq_true, beq_iff_eq] at hb
      rcases hb with ((((h1 | h1) | h1) | h1) | h1) | h1 <;>
        (subst h1; exact absurd h (by decide))
  · intro he; subst he; exact absurd h (by decide)
  · intro he; subst he; exact absurd h (by decide)

lemma atoi_digits (l : List Char) (h1 : l ≠ []) (h2 : ∀ c ∈ l, c.isDigit = true) :
    atoiChars l = (digitsToNat l 0 : Int) := by
  cases l with
  | nil => exact absurd rfl h1
  | cons c cs =>
    have hc : c.isDigit = true := h2 c (List.mem_cons_self c cs)
    obtain ⟨hsp, hminus, hplus⟩ := isDigit_not_special c hc
    simp only [atoiChars]
    rw [if_neg (by simp [hsp]), if_neg hminus, if_neg hplus]

lemma atoi_intToChars (z : Int) : atoiChars (intToChars z) = z := by
  rcases lt_or_ge z 0 with hz | hz
  · rw [intToChars, if_pos hz]
    simp only [atoiChars]
    rw [if_neg (by decide), if_pos (by trivial)]
    rw [digitsToNat_natToChars]
    omega
  · rw [intToChars, if_neg (by omega)]
    rw [atoi_digits _ (natToChars_ne_nil z.toNat) (natToChars_digits z.toNat)]
    rw [digitsToNat_natToChars]
    omega

/-! ### List helpers -/

lemma range_map_getD {α : Type} (l : List α) (n : Nat) (hn : n ≤ l.length) (d : α) :
    (List.range n).map (fun i => l.getD i d) = l.take n := by
  apply List.ext_getElem
  · simp [hn]
  · intro i h1 h2
    simp only [List.getElem_map, List.getElem_range, List.getElem_take]
    rw [List.getD_eq_getElem]

/-! ### The per-task pipeline: last-write form of the parent's store loop -/

lemma foldl_updateFn_apply (h : Nat × Nat → Int) :
    ∀ (l : List (Nat × Nat)) (d : Nat → Nat → Int) (r c : Nat),
      (l.foldl (fun d p => updateFn d p.1 p.2 (h p)) d) r c =
        if (r, c) ∈ l then h (r, c) else d r c := by
  intro l
  induction l with
  | nil => intro d r c; simp
  | cons p ps ih =>
    intro d r c
    rw [List.foldl_cons, ih]
    by_cases hm : (r, c) ∈ ps
    · rw [if_pos hm, if_pos (List.mem_cons_of_mem p hm)]
    · rw [if_neg hm]
      by_cases hp : p = (r, c)
      · subst hp
        rw [if_pos (List.mem_cons_self _ _)]
        simp [updateFn]
      · have hne : ¬ (r = p.1 ∧ c = p.2) := by
          rintro ⟨h1, h2⟩
          exact hp (by cases p; simp_all)
        rw [if_neg (by rw [List.mem_cons]; push_neg; exact ⟨fun he => hp he.symm, hm⟩)]
        simp only [updateFn]
        rw [if_neg hne]

lemma runTask_foldl (m1 m2 : Matrix) (t : Task) (d : Nat → Nat → Int) :
    runTask m1 m2 t d =
      (cellsOf t m2.col).foldl
        (fun d p => updateFn d p.1 p.2 (atoiChars (intToChars (dotFrom m1 m2 p.1 p.2)))) d := by
  rw [runTask, childMessages]
  generalize cellsOf t m2.col = l
  induction l generalizing d with
  | nil => rfl
  | cons p ps ih =>
    simp only [List.map_cons, List.zip_cons_cons, List.foldl_cons]
    exact ih _

lemma runTask_apply (m1 m2 : Matrix) (t : Task) (d : Nat → Nat → Int) (r c : Nat) :
    runTask m1 m2 t d r c =
      if (r, c) ∈ cellsOf t m2.col then dotFrom m1 m2 r c else d r c := by
  rw [runTask_foldl]
  rw [foldl_updateFn_apply (fun p => atoiChars (intToChars (dotFrom m1 m2 p.1 p.2)))]
  rw [atoi_intToChars]

lemma mem_cellsOf (t : Task) (cols r c : Nat) :
    (r, c) ∈ cellsOf t cols ↔
      (t.start_row ≤ r ∧ r < t.start_row + (t.end_row - t.start_row)) ∧ c < cols := by
  simp only [cellsOf, List.mem_flatMap, List.mem_map, List.mem_range, List.mem_range'_1,
    Prod.mk.injEq]
  constructor
  · rintro ⟨a, ha, b, hb, rfl, rfl⟩
    exact ⟨ha, hb⟩
  · rintro ⟨ha, hb⟩
    exact ⟨r, ha, c, hb, rfl, rfl⟩

lemma cellsOf_closed : ∀ (n s cols : Nat),
    (List.range' s n).flatMap (fun r => (List.range cols).map fun c => (r, c)) =
      (List.range (n * cols)).map (fun k => (s + k / cols, k % cols)) := by
  intro n
  induction n with
  | zero => intro s cols; simp
  | succ n ih =>
    intro s cols
    by_cases hc : cols = 0
    · subst hc; simp
    · have hcpos : 0 < cols := Nat.pos_of_ne_zero hc
      rw [List.range'_succ, List.cons_flatMap, ih (s + 1) cols]
      have hmul : (n + 1) * cols = cols + n * cols := by ring
      rw [hmul, List.range_add, List.map_append, List.map_map]
      congr 1
      · apply List.map_congr_left
        intro k hk
        rw [List.mem_range] at hk
        rw [Nat.div_eq_of_lt hk, Nat.mod_eq_of_lt hk, Nat.add_zero]
      · apply List.map_congr_left
        intro k _
        simp only [Function.comp]
        rw [Nat.add_comm cols k, Nat.add_div_right _ hcpos, Nat.add_mod_right]
        rw [Prod.mk.injEq]
        exact ⟨by omega, rfl⟩

lemma cellsOf_eq (t : Task) (cols : Nat) :
    cellsOf t cols = (List.range (taskSize t * cols)).map
      (fun k => (t.start_row + k / cols, k % cols)) := by
  rw [cellsOf, taskSize, cellsOf_closed]

/-! ### The partition loop: closed form and partition laws -/

lemma taskEndOf_startF (rows nW n : Nat) :
    taskEndOf rows nW (startF rows nW n) n = startF rows nW (n + 1) := by
  rw [taskEndOf, startF, startF]
  by_cases h : n < rows % nW
  · rw [if_pos h, Nat.min_eq_left (le_of_lt h), Nat.min_eq_left h]
    simp only [Nat.succ_eq_add_one]
    ring
  · rw [if_neg h, Nat.min_eq_right (le_of_not_lt h), Nat.min_eq_right (by omega)]
    ring

lemma buildTasksFrom_eq (rows nW : Nat) :
    ∀ k n : Nat, buildTasksFrom rows nW n (startF rows nW n) k =
      (List.range k).map
        (fun j => Task.mk (startF rows nW (n + j)) (startF rows nW (n + j + 1))) := by
  intro k
  induction k with
  | zero => intro n; rfl
  | succ k ih =>
    intro n
    rw [buildTasksFrom, taskEndOf_startF, ih (n + 1)]
    rw [List.range_succ_eq_map, List.map_cons, List.map_map]
    congr 1
    apply List.map_congr_left
    intro j hj
    simp only [Function.comp_apply, Nat.succ_eq_add_one]
    have e1 : n + 1 + j = n + (j + 1) := by omega
    rw [e1]

lemma buildTasks_eq (rows nW : Nat) :
    buildTasks rows nW = (List.range nW).map
      (fun j => Task.mk (startF rows nW j) (startF rows nW (j + 1))) := by
  have h0 : startF rows nW 0 = 0 := by simp [startF]
  have h := buildTasksFrom_eq rows nW nW 0
  rw [h0] at h
  rw [buildTasks, h]
  simp

lemma startF_succ (rows nW n : Nat) :
    startF rows nW (n + 1) =
      startF rows nW n + rows / nW + (if n < rows % nW then 1 else 0) := by
  rw [← taskEndOf_startF, taskEndOf]
  by_cases h : n < rows % nW
  · simp [h]
  · simp [h]

lemma startF_le_succ (rows nW n : Nat) : startF rows nW n ≤ startF rows nW (n + 1) := by
  rw [startF_succ]
  exact le_trans (Nat.le_add_right _ _) (Nat.le_add_right _ _)

lemma startF_mono (rows nW : Nat) : Monotone (startF rows nW) :=
  monotone_nat_of_le_succ (startF_le_succ rows nW)

lemma startF_last (rows nW : Nat) (h : 1 ≤ nW) : startF rows nW nW = rows := by
  rw [startF]
  have hrem : rows % nW < nW := Nat.mod_lt _ (by omega)
  rw [Nat.min_eq_right (le_of_lt hrem)]
  exact Nat.div_add_mod rows nW

lemma taskAt_eq (rows nW i : Nat) (hi : i < nW) :
    taskAt rows nW i = Task.mk (startF rows nW i) (startF rows nW (i + 1)) := by
  rw [taskAt, buildTasks_eq]
  rw [List.getD_eq_getElem _ _ (by simpa using hi)]
  simp

lemma startF_cover (rows nW r : Nat) :
    ∀ k, r < startF rows nW k →
      ∃ i, i < k ∧ startF rows nW i ≤ r ∧ r < startF rows nW (i + 1) := by
  intro k
  induction k with
  | zero => intro h; simp [startF] at h
  | succ k ih =>
    intro h
    by_cases hk : r < startF rows nW k
    · obtain ⟨i, h1, h2, h3⟩ := ih hk
      exact ⟨i, by omega, h2, h3⟩
    · exact ⟨k, by omega, by omega, h⟩

/-! ### The multiply pipeline computes the mathematical product -/

lemma foldl_add_range (g : Nat → Int) : ∀ (n : Nat) (a : Int),
    (List.range n).foldl (fun s i => s + g i) a = a + ∑ i in Finset.range n, g i := by
  intro n
  induction n with
  | zero => intro a; simp
  | succ n ih =>
    intro a
    rw [List.range_succ, List.foldl_append, ih]
    simp only [List.foldl_cons, List.foldl_nil, Finset.sum_range_succ]
    ring

lemma dotFrom_eq (m1 m2 : Matrix) (r c : Nat) : dotFrom m1 m2 r c = mathProd m1 m2 r c := by
  rw [dotFrom, mathProd, foldl_add_range]
  simp

lemma multiplyData_foldl (m1 m2 : Matrix) (nW : Nat) (init : Nat → Nat → Int) :
    multiplyData m1 m2 nW init =
      (List.range nW).foldl
        (fun d j =>
          runTask m1 m2 (Task.mk (startF m1.row nW j) (startF m1.row nW (j + 1))) d)
        init := by
  rw [multiplyData, buildTasks_eq, List.foldl_map]

lemma multiplyDataRacy_none (m1 m2 : Matrix) (nW : Nat) (init : Nat → Nat → Int) :
    multiplyDataRacy m1 m2 nW (fun _ => none) init = multiplyData m1 m2 nW init := by
  rw [multiplyDataRacy, multiplyData_foldl]
  rfl

lemma multiplyData_upto (m1 m2 : Matrix) (nW : Nat) (init : Nat → Nat → Int) :
    ∀ k r c : Nat, c < m2.col →
      ((List.range k).foldl
        (fun d j =>
          runTask m1 m2 (Task.mk (startF m1.row nW j) (startF m1.row nW (j + 1))) d)
        init) r c =
        if r < startF m1.row nW k then dotFrom m1 m2 r c else init r c := by
  intro k
  induction k with
  | zero => intro r c _; simp [startF]
  | succ k ih =>
    intro r c hc
    rw [List.range_succ, List.foldl_append, List.foldl_cons, List.foldl_nil]
    rw [runTask_apply]
    simp only [mem_cellsOf]
    have hse := startF_le_succ m1.row nW k
    by_cases h1 : (startF m1.row nW k ≤ r ∧
        r < startF m1.row nW k + (startF m1.row nW (k + 1) - startF m1.row nW k)) ∧
        c < m2.col
    · rw [if_pos h1, if_pos (by omega : r < startF m1.row nW (k + 1))]
    · rw [if_neg h1, ih r c hc]
      by_cases h2 : r < startF m1.row nW k
      · rw [if_pos h2, if_pos (by omega : r < startF m1.row nW (k + 1))]
      · rw [if_neg h2, if_neg ?hne]
        case hne =>
          intro h3
          exact h1 ⟨⟨by omega, by omega⟩, hc⟩

lemma multiplyData_apply (m1 m2 : Matrix) (nW : Nat) (init : Nat → Nat → Int)
    (h : 1 ≤ nW) (r c : Nat) (hr : r < m1.row) (hc : c < m2.col) :
    multiplyData m1 m2 nW init r c = dotFrom m1 m2 r c := by
  rw [multiplyData_foldl]
  rw [multiplyData_upto m1 m2 nW init nW r c hc]
  rw [if_pos (by rw [startF_last _ _ h]; exact hr)]

/-! ### Proc-file handler lemmas -/

lemma kstrtoint_nil : kstrtoint [] = none := rfl

lemma bufCString_head (buf : Nat → Char) (h : buf 0 = nullChar) : bufCString buf = [] := by
  rw [bufCString, show PROCFS_MAX_SIZE = 1023 + 1 from rfl, cstr, if_pos h]

lemma write_size_bounds (buf : Nat → Char) (input : List Char)
    (hp : kstrtoint (bufCString (writeBuf buf input)) ≠ none) :
    0 < acceptedSize input.length ∧ acceptedSize input.length < PROCFS_MAX_SIZE := by
  by_contra hcon
  have hle : acceptedSize input.length ≤ PROCFS_MAX_SIZE := Nat.min_le_right _ _
  have h0 : acceptedSize input.length % PROCFS_MAX_SIZE = 0 := by
    rw [PROCFS_MAX_SIZE] at hle ⊢
    rw [PROCFS_MAX_SIZE] at hcon
    omega
  apply hp
  have hb0 : writeBuf buf input 0 = nullChar := by
    rw [writeBuf, setByte, h0]
    simp
  rw [bufCString_head _ hb0, kstrtoint_nil]

lemma readback_accepted (buf : Nat → Char) (input : List Char)
    (h2 : acceptedSize input.length < PROCFS_MAX_SIZE) :
    (List.range (acceptedSize input.length)).map (writeBuf buf input) =
      input.take (acceptedSize input.length) := by
  have hlen : acceptedSize input.length ≤ input.length := Nat.min_le_left _ _
  rw [← range_map_getD input (acceptedSize input.length) hlen ' ']
  apply List.map_congr_left
  intro i hi
  rw [List.mem_range] at hi
  rw [writeBuf, setByte]
  have hne : i ≠ acceptedSize input.length % PROCFS_MAX_SIZE := by
    rw [Nat.mod_eq_of_lt h2]
    omega
  rw [if_neg hne, overlay, if_pos hi]

lemma readback_record (buf2 : Nat → Char) (r : List Char) :
    (List.range r.length).map (overlay buf2 (r ++ [nullChar]) (r.length + 1)) = r := by
  have h := range_map_getD (r ++ [nullChar]) r.length (by simp) ' '
  rw [List.take_left] at h
  have h2 : (List.range r.length).map (overlay buf2 (r ++ [nullChar]) (r.length + 1)) =
      (List.range r.length).map (fun i => (r ++ [nullChar]).getD i ' ') := by
    apply List.map_congr_left
    intro i hi
    rw [List.mem_range] at hi
    simp only [overlay]
    rw [if_pos (by omega)]
  rw [h2, h]

/-! ### Channel invariant preservation -/

lemma chInv_init (k : Nat) (buf0 : List Char) (resp : Fin k → List Char) :
    chInv resp (chInit k buf0) := by
  refine ⟨?_, ?_, ?_⟩ <;> intro w hw <;> simp [chInit] at hw

lemma chInv_step {k : Nat} (resp : Fin k → List Char) (s s2 : ChState k) (w : Fin k)
    (hInv : chInv resp s) (hstep : chStep resp s w = some s2) : chInv resp s2 := by
  obtain ⟨h1, h2, h3⟩ := hInv
  rw [chStep] at hstep
  cases hph : s.phase w with
  | start =>
    rw [if_pos hph] at hstep
    by_cases hl : s.lock = none
    · rw [if_pos hl] at hstep
      obtain rfl := Option.some.inj hstep
      refine ⟨?_, ?_, ?_⟩
      · intro w' hw'
        dsimp only at hw' ⊢
        by_cases hww : w' = w
        · subst hww; rfl
        · rw [Function.update_noteq hww] at hw'
          exact absurd (h1 w' hw') (by rw [hl]; simp)
      · intro w' hw'
        dsimp only at hw' ⊢
        by_cases hww : w' = w
        · subst hww; rw [Function.update_same] at hw'; simp at hw'
        · rw [Function.update_noteq hww] at hw'
          exact h2 w' hw'
      · intro w' hw'
        dsimp only at hw' ⊢
        by_cases hww : w' = w
        · subst hww; rw [Function.update_same] at hw'; simp at hw'
        · rw [Function.update_noteq hww] at hw'
          exact h3 w' hw'
    · rw [if_neg hl] at hstep; cases hstep
  | locked =>
    rw [if_neg (by simp [hph]), if_pos hph] at hstep
    by_cases hl : s.lock = some w
    · rw [if_pos hl] at hstep
      obtain rfl := Option.some.inj hstep
      refine ⟨?_, ?_, ?_⟩
      · intro w' hw'
        dsimp only at hw' ⊢
        by_cases hww : w' = w
        · subst hww; exact hl
        · rw [Function.update_noteq hww] at hw'
          exact h1 w' hw'
      · intro w' hw'
        dsimp only at hw' ⊢
        by_cases hww : w' = w
        · subst hww; rfl
        · rw [Function.update_noteq hww] at hw'
          exfalso
          have hlk := h1 w' (Or.inr (Or.inl hw'))
          exact hww (Option.some.inj (hl.symm.trans hlk)).symm
      · intro w' hw'
        dsimp only at hw' ⊢
        by_cases hww : w' = w
        · subst hww; rw [Function.update_same] at hw'; simp at hw'
        · rw [Function.update_noteq hww] at hw'
          exact h3 w' hw'
    · rw [if_neg hl] at hstep; cases hstep
  | written =>
    rw [if_neg (by simp [hph]), if_neg (by simp [hph]), if_pos hph] at hstep
    by_cases hl : s.lock = some w
    · rw [if_pos hl] at hstep
      obtain rfl := Option.some.inj hstep
      refine ⟨?_, ?_, ?_⟩
      · intro w' hw'
        dsimp only at hw' ⊢
        by_cases hww : w' = w
        · subst hww; exact hl
        · rw [Function.update_noteq hww] at hw'
          exact h1 w' hw'
      · intro w' hw'
        dsimp only at hw' ⊢
        by_cases hww : w' = w
        · subst hww; rw [Function.update_same] at hw'; simp at hw'
        · rw [Function.update_noteq hww] at hw'
          exact h2 w' hw'
      · intro w' hw'
        dsimp only at hw' ⊢
        by_cases hww : w' = w
        · subst hww
          rw [Function.update_same]
          exact h2 _ hph
        · rw [Function.update_noteq hww] at hw'
          rw [Function.update_noteq hww]
          exact h3 w' hw'
    · rw [if_neg hl] at hstep; cases hstep
  | readDone =>
    rw [if_neg (by simp [hph]), if_neg (by simp [hph]), if_neg (by simp [hph]),
      if_pos hph] at hstep
    by_cases hl : s.lock = some w
    · rw [if_pos hl] at hstep
      obtain rfl := Option.some.inj hstep
      refine ⟨?_, ?_, ?_⟩
      · intro w' hw'
        dsimp only at hw' ⊢
        exfalso
        by_cases hww : w' = w
        · subst hww; rw [Function.update_same] at hw'; simp at hw'
        · rw [Function.update_noteq hww] at hw'
          have hlk := h1 w' hw'
          exact hww (Option.some.inj (hl.symm.trans hlk)).symm
      · intro w' hw'
        dsimp only at hw' ⊢
        by_cases hww : w' = w
        · subst hww; rw [Function.update_same] at hw'; simp at hw'
        · rw [Function.update_noteq hww] at hw'
          exact h2 w' hw'
      · intro w' hw'
        dsimp only at hw' ⊢
        by_cases hww : w' = w
        · subst hww
          exact h3 _ (Or.inl hph)
        · rw [Function.update_noteq hww] at hw'
          exact h3 w' hw'
    · rw [if_neg hl] at hstep; cases hstep
  | done =>
    rw [if_neg (by simp [hph]), if_neg (by simp [hph]), if_neg (by simp [hph]),
      if_neg (by simp [hph])] at hstep
    cases hstep

lemma chRun_inv {k : Nat} (resp : Fin k → List Char) :
    ∀ (ws : List (Fin k)) (s s2 : ChState k),
      chInv resp s → chRun resp s ws = some s2 → chInv resp s2 := by
  intro ws
  induction ws with
  | nil =>
    intro s s2 h hr
    obtain rfl := Option.some.inj hr
    exact h
  | cons w ws ih =>
    intro s s2 h hr
    rw [chRun] at hr
    cases hst : chStep resp s w with
    | none => rw [hst] at hr; cases hr
    | some s1 =>
      rw [hst] at hr
      exact ih s1 s2 (chInv_step resp s s1 w h hst) hr

/-! ## Claim theorems -/

/-- C1 (code bug): the claimed equality fails on the program as written.
`multiply()` launches each worker (`pthread_create`, MT_matrix.c line 277)
before storing `t[n].end_row` (lines 284-287), and `thread()` copies `*param`
with no synchronization (line 110), so a worker can observe a stale
`end_row`. Concretely, with the scenario-A matrices `[[1,2],[3,4]]` and
`[[5,6],[7,8]]` and one worker whose copy precedes the store and reads the
fresh `malloc` memory as 0 (`raceObs`), the worker computes an empty row
range and output cell `(0,0)` keeps its initial value 0, while the
mathematical product entry is 19. The claim itself is the spec's intent and
is right about the algorithm: with every observation after the store the
racy model coincides with `multiplyData` (`multiplyDataRacy_none`), which
does equal the product at every cell (`multiply_correct`). -/
theorem multiply_race_bug :
    m1A.col = m2A.row ∧
    multiplyData m1A m2A 1 dInit 0 0 = mathProd m1A m2A 0 0 ∧
    multiplyDataRacy m1A m2A 1 raceObs dInit 0 0 = 0 ∧
    mathProd m1A m2A 0 0 = 19 ∧
    multiplyDataRacy m1A m2A 1 raceObs dInit 0 0 ≠ mathProd m1A m2A 0 0 := by
  have hprod : mathProd m1A m2A 0 0 = 19 := by
    rw [← dotFrom_eq]
    decide
  have hracy : multiplyDataRacy m1A m2A 1 raceObs dInit 0 0 = 0 := by decide
  have hfree : multiplyData m1A m2A 1 dInit 0 0 = mathProd m1A m2A 0 0 := by
    rw [← dotFrom_eq]
    decide
  refine ⟨rfl, hfree, hracy, hprod, ?_⟩
  rw [hracy, hprod]
  decide

/-- The race-free linearization computes the product: for every pair of
matrices with `m1.col = m2.row` and every worker count in `[1, m1.row + 5]`,
if every worker observes its fully assigned Task, the resulting matrix equals
the standard mathematical product, independent of the worker count and of the
initial result-store contents (supporting evidence that claim C1 states the
intended behavior). -/
theorem multiply_correct (m1 m2 : Matrix) (nW : Nat) (init : Nat → Nat → Int)
    (hdim : m1.col = m2.row) (h1 : 1 ≤ nW) (h2 : nW ≤ m1.row + 5) :
    ∃ f, (multiplyRun m1 m2 nW init).result = some f ∧
      ∀ r, r < m1.row → ∀ c, c < m2.col → f r c = mathProd m1 m2 r c := by
  refine ⟨multiplyData m1 m2 nW init, ?_, ?_⟩
  · rw [multiplyRun, if_neg (not_ne_iff.mpr hdim)]
  · intro r hr c hc
    rw [multiplyData_apply m1 m2 nW init h1 r c hr hc, dotFrom_eq]

theorem multiply_correct_witness :
    ∃ f, (multiplyRun m1A m2A 1 dInit).result = some f ∧
      ∀ r, r < m1A.row → ∀ c, c < m2A.col → f r c = mathProd m1A m2A r c :=
  multiply_correct m1A m2A 1 dInit rfl (by decide) (by decide)

/-- C2: for every `rows` and every `n_workers ≥ 1`, the tasks produced by the
partition loop of `multiply()` are `n_workers` many, start at row 0, are
contiguous in worker-index order, pairwise disjoint, stay inside and jointly
cover `[0, rows)`, and the first `rows % n_workers` tasks have exactly one
more row (`rows / n_workers + 1`) than the remaining ones. -/
theorem tasks_partition (rows nW : Nat) (h : 1 ≤ nW) :
    (buildTasks rows nW).length = nW ∧
    (taskAt rows nW 0).start_row = 0 ∧
    (∀ i, i + 1 < nW →
      (taskAt rows nW (i + 1)).start_row = (taskAt rows nW i).end_row) ∧
    (∀ i j r, i < j → j < nW →
      ¬ (inTask (taskAt rows nW i) r ∧ inTask (taskAt rows nW j) r)) ∧
    (∀ r, r < rows → ∃ i, i < nW ∧ inTask (taskAt rows nW i) r) ∧
    (∀ i, i < nW → (taskAt rows nW i).start_row ≤ (taskAt rows nW i).end_row ∧
      (taskAt rows nW i).end_row ≤ rows) ∧
    (∀ i, i < nW →
      taskSize (taskAt rows nW i) = rows / nW + (if i < rows % nW then 1 else 0)) := by
  refine ⟨?_, ?_, ?_, ?_, ?_, ?_, ?_⟩
  · rw [buildTasks_eq]; simp
  · rw [taskAt_eq rows nW 0 (by omega)]; simp [startF]
  · intro i hi
    rw [taskAt_eq rows nW (i + 1) hi, taskAt_eq rows nW i (by omega)]
  · intro i j r hij hj
    rw [taskAt_eq rows nW i (by omega), taskAt_eq rows nW j hj]
    simp only [inTask]
    rintro ⟨⟨_, hi2⟩, hj1, _⟩
    have hmono := startF_mono rows nW (show i + 1 ≤ j by omega)
    omega
  · intro r hr
    have hr2 : r < startF rows nW nW := by rw [startF_last rows nW h]; exact hr
    obtain ⟨i, hik, h2, h3⟩ := startF_cover rows nW r nW hr2
    refine ⟨i, hik, ?_⟩
    rw [taskAt_eq rows nW i hik]
    simp only [inTask]
    exact ⟨h2, h3⟩
  · intro i hi
    rw [taskAt_eq rows nW i hi]
    dsimp only
    refine ⟨startF_le_succ rows nW i, ?_⟩
    have hmono := startF_mono rows nW (show i + 1 ≤ nW by omega)
    rw [startF_last rows nW h] at hmono
    exact hmono
  · intro i hi
    rw [taskAt_eq rows nW i hi, taskSize]
    dsimp only
    rw [startF_succ]
    by_cases hrem : i < rows % nW
    · rw [if_pos hrem]
      generalize rows / nW = q
      omega
    · rw [if_neg hrem]
      generalize rows / nW = q
      omega

theorem tasks_partition_witness :
    (buildTasks 5 2).length = 2 ∧
    (taskAt 5 2 0).start_row = 0 ∧
    (∀ i, i + 1 < 2 → (taskAt 5 2 (i + 1)).start_row = (taskAt 5 2 i).end_row) ∧
    (∀ i j r, i < j → j < 2 → ¬ (inTask (taskAt 5 2 i) r ∧ inTask (taskAt 5 2 j) r)) ∧
    (∀ r, r < 5 → ∃ i, i < 2 ∧ inTask (taskAt 5 2 i) r) ∧
    (∀ i, i < 2 → (taskAt 5 2 i).start_row ≤ (taskAt 5 2 i).end_row ∧
      (taskAt 5 2 i).end_row ≤ 5) ∧
    (∀ i, i < 2 → taskSize (taskAt 5 2 i) = 5 / 2 + (if i < 5 % 2 then 1 else 0)) :=
  tasks_partition 5 2 (by decide)

/-- C3: under `k` concurrent workers each running the mutex-guarded
write-then-read transaction of `thread()` against the single channel slot,
in every reachable interleaving every worker that completed its transaction
has read exactly the record the handler produced for the identifier that
worker itself wrote (`handlerRecord (pids w)`), never another worker's
answer — given the handler finds a match for every identifier. -/
theorem telemetry_no_crosstalk {k : Nat} (pids : Fin k → Int)
    (handlerRecord : Int → List Char) (buf0 : List Char) (ws : List (Fin k))
    (s : ChState k) (w : Fin k)
    (hrun : chRun (fun v => handlerRecord (pids v)) (chInit k buf0) ws = some s)
    (hdone : s.phase w = Phase.done) :
    s.readv w = handlerRecord (pids w) := by
  have hInv := chRun_inv (fun v => handlerRecord (pids v)) ws (chInit k buf0) s
    (chInv_init k buf0 _) hrun
  exact hInv.2.2 w (Or.inr hdone)

theorem telemetry_no_crosstalk_witness : chSEx.readv 0 = handlerEx (pidsEx 0) :=
  telemetry_no_crosstalk pidsEx handlerEx [] traceEx chSEx 0 rfl rfl

/-- C4: a write of a well-formed decimal identifier that matches no table
entry leaves the buffer holding exactly the accepted raw bytes the caller
wrote and the size field as set by the accept step (untouched by the lookup),
so a subsequent read from offset 0 returns those literal bytes with a
positive (non-error) return value. -/
theorem write_nomatch_raw (tbl : List TaskEntry) (st : ProcState) (input : List Char)
    (off : Int) (pid : Int)
    (hp : kstrtoint (bufCString (writeBuf st.buf input)) = some pid)
    (hm : tbl.find? (fun e => e.pid == pid) = none) :
    (procfile_write tbl st input off).state.size = acceptedSize input.length ∧
    (procfile_read (procfile_write tbl st input off).state 0).bytes =
      input.take (acceptedSize input.length) ∧
    (procfile_read (procfile_write tbl st input off).state 0).ret =
      (acceptedSize input.length : Int) ∧
    0 < acceptedSize input.length := by
  obtain ⟨hpos, hlt⟩ := write_size_bounds st.buf input (by rw [hp]; simp)
  have hw : procfile_write tbl st input off =
      WriteResult.mk
        (ProcState.mk (writeBuf st.buf input) (acceptedSize input.length))
        (off + (acceptedSize input.length : Int)) (acceptedSize input.length : Int) := by
    simp only [procfile_write, hp, hm]
  rw [hw]
  have hread : ¬ ((0 : Int) ≥ ((ProcState.mk (writeBuf st.buf input)
      (acceptedSize input.length)).size : Int)) := by
    dsimp only
    omega
  refine ⟨rfl, ?_, ?_⟩
  · simp only [procfile_read]
    rw [if_neg hread]
    dsimp only
    exact readback_accepted st.buf input hlt
  · simp only [procfile_read]
    rw [if_neg hread]
    exact ⟨rfl, hpos⟩

theorem write_nomatch_raw_witness :
    (procfile_write [] procSt0 chars99 0).state.size = acceptedSize chars99.length ∧
    (procfile_read (procfile_write [] procSt0 chars99 0).state 0).bytes =
      chars99.take (acceptedSize chars99.length) ∧
    (procfile_read (procfile_write [] procSt0 chars99 0).state 0).ret =
      (acceptedSize chars99.length : Int) ∧
    0 < acceptedSize chars99.length :=
  write_nomatch_raw [] procSt0 chars99 0 99 (by decide) (by decide)

/-- C5: a write of a decimal identifier matching a table entry with fields
`(pid, utime, nvcsw, nivcsw)` overwrites the buffer with the record
`"ThreadID:<pid> Time:<utime/1000/1000>(ms) context switch times:<nvcsw+nivcsw>"`
(the reported switch count is the sum of voluntary and involuntary switches,
the time is utime converted to milliseconds), sets the size field to the new
content's length, and a read from offset 0 returns exactly that record. -/
theorem write_match_record (tbl : List TaskEntry) (st : ProcState) (input : List Char)
    (off : Int) (pid : Int) (e : TaskEntry)
    (hp : kstrtoint (bufCString (writeBuf st.buf input)) = some pid)
    (hm : tbl.find? (fun x => x.pid == pid) = some e) :
    (procfile_write tbl st input off).state.size = (recordOf e).length ∧
    (procfile_write tbl st input off).ret = ((recordOf e).length : Int) ∧
    (procfile_read (procfile_write tbl st input off).state 0).bytes = recordOf e ∧
    recordOf e =
      "ThreadID:".data ++ intToChars e.pid ++ " Time:".data ++
        natToChars (e.utime / 1000 / 1000) ++ "(ms) context switch times:".data ++
        natToChars (e.nvcsw + e.nivcsw) ++ ['\n'] := by
  have hw : procfile_write tbl st input off =
      WriteResult.mk
        (ProcState.mk
          (overlay (writeBuf st.buf input) (recordOf e ++ [nullChar])
            ((recordOf e).length + 1))
          (recordOf e).length)
        (off + (acceptedSize input.length : Int)) ((recordOf e).length : Int) := by
    simp only [procfile_write, hp, hm]
  rw [hw]
  have hrpos : 0 < (recordOf e).length := by
    rw [recordOf]
    simp
  refine ⟨rfl, rfl, ?_, rfl⟩
  simp only [procfile_read]
  rw [if_neg (by omega)]
  dsimp only
  exact readback_record (writeBuf st.buf input) (recordOf e)

theorem write_match_record_witness :
    (procfile_write [entry42] procSt0 chars42 0).state.size = (recordOf entry42).length ∧
    (procfile_write [entry42] procSt0 chars42 0).ret = ((recordOf entry42).length : Int) ∧
    (procfile_read (procfile_write [entry42] procSt0 chars42 0).state 0).bytes =
      recordOf entry42 ∧
    recordOf entry42 =
      "ThreadID:".data ++ intToChars entry42.pid ++ " Time:".data ++
        natToChars (entry42.utime / 1000 / 1000) ++ "(ms) context switch times:".data ++
        natToChars (entry42.nvcsw + entry42.nivcsw) ++ ['\n'] :=
  write_match_record [entry42] procSt0 chars42 0 42 entry42 (by decide) (by decide)

/-- C6 counterexample: the write `"abc"` does not parse, 3 bytes are accepted
into the buffer, yet `procfile_write` returns 0, not the accepted length 3 —
refuting the claim that the return value is the accepted byte count. -/
theorem write_badparse_retzero_cex :
    kstrtoint (bufCString (writeBuf procSt0.buf charsAbc)) = none ∧
    acceptedSize charsAbc.length = 3 ∧
    (procfile_write [] procSt0 charsAbc 0).ret = 0 ∧
    (procfile_write [] procSt0 charsAbc 0).ret ≠ (acceptedSize charsAbc.length : Int) := by
  refine ⟨by decide, by decide, by decide, by decide⟩

/-- C6 (amended): on a write whose content fails to parse as a decimal
identifier the handler does not crash — it still accepts the (truncated)
bytes into the buffer and terminates normally — but its return value is 0,
not the accepted length. -/
theorem write_badparse_returns_zero (tbl : List TaskEntry) (st : ProcState)
    (input : List Char) (off : Int)
    (hp : kstrtoint (bufCString (writeBuf st.buf input)) = none) :
    (procfile_write tbl st input off).ret = 0 ∧
    (procfile_write tbl st input off).state =
      ProcState.mk (writeBuf st.buf input) (acceptedSize input.length) := by
  simp only [procfile_write, hp]
  exact ⟨trivial, trivial⟩

theorem write_badparse_returns_zero_witness :
    (procfile_write [] procSt0 charsAbc 0).ret = 0 ∧
    (procfile_write [] procSt0 charsAbc 0).state =
      ProcState.mk (writeBuf procSt0.buf charsAbc) (acceptedSize charsAbc.length) :=
  write_badparse_returns_zero [] procSt0 charsAbc 0 (by decide)

/-- C7: every write transfer is bounded by the channel capacity: only buffer
indices below `PROCFS_MAX_SIZE` are ever modified, at most `PROCFS_MAX_SIZE`
bytes are accepted, an oversized write is truncated to exactly the capacity
(accepted, not rejected), and the handler's return value is never a negative
error code on this path. -/
theorem write_bounded (tbl : List TaskEntry) (st : ProcState) (input : List Char)
    (off : Int) (i : Nat) (hi : writeBuf st.buf input i ≠ st.buf i) :
    i < PROCFS_MAX_SIZE ∧
    acceptedSize input.length ≤ PROCFS_MAX_SIZE ∧
    (PROCFS_MAX_SIZE < input.length → acceptedSize input.length = PROCFS_MAX_SIZE) ∧
    0 ≤ (procfile_write tbl st input off).ret := by
  refine ⟨?_, Nat.min_le_right _ _, fun h => Nat.min_eq_right (le_of_lt h), ?_⟩
  · by_contra hge
    push_neg at hge
    apply hi
    rw [writeBuf, setByte]
    have h1 : i ≠ acceptedSize input.length % PROCFS_MAX_SIZE := by
      have := Nat.mod_lt (acceptedSize input.length)
        (show 0 < PROCFS_MAX_SIZE by decide)
      omega
    rw [if_neg h1, overlay]
    have h2 : ¬ i < acceptedSize input.length := by
      have hacc : acceptedSize input.length ≤ PROCFS_MAX_SIZE := Nat.min_le_right _ _
      omega
    rw [if_neg h2]
  · cases hk : kstrtoint (bufCString (writeBuf st.buf input)) with
    | none =>
      simp only [procfile_write, hk]
      exact le_refl 0
    | some pid =>
      cases hf : tbl.find? (fun e => e.pid == pid) with
      | none =>
        simp only [procfile_write, hk, hf]
        exact Int.natCast_nonneg _
      | some e =>
        simp only [procfile_write, hk, hf]
        exact Int.natCast_nonneg _

set_option maxRecDepth 10000 in
theorem write_bounded_witness :
    0 < PROCFS_MAX_SIZE ∧
    acceptedSize bigInput.length ≤ PROCFS_MAX_SIZE ∧
    (PROCFS_MAX_SIZE < bigInput.length → acceptedSize bigInput.length = PROCFS_MAX_SIZE) ∧
    0 ≤ (procfile_write [] procSt0 bigInput 0).ret :=
  write_bounded [] procSt0 bigInput 0 0 (by decide)

/-- C8: for every task, the child writes exactly one message per `(r, c)`
cell of its row range, in row-major order (message `k` encodes the dot
product of cell `(start_row + k / cols, k % cols)`), and the parent performs
exactly as many reads, in the same order, storing the decoded value of the
`k`-th message at the `k`-th row-major cell of the output — each read
consumes exactly one write. -/
theorem pipe_protocol (m1 m2 : Matrix) (t : Task) (d : Nat → Nat → Int) :
    (childMessages m1 m2 t).length = taskSize t * m2.col ∧
    (∀ k, k < taskSize t * m2.col →
      (childMessages m1 m2 t).getD k [] =
        intToChars (dotFrom m1 m2 (t.start_row + k / m2.col) (k % m2.col))) ∧
    (∀ k, k < taskSize t * m2.col →
      runTask m1 m2 t d (t.start_row + k / m2.col) (k % m2.col) =
        atoiChars ((childMessages m1 m2 t).getD k [])) := by
  have hmsg : ∀ k, k < taskSize t * m2.col →
      (childMessages m1 m2 t).getD k [] =
        intToChars (dotFrom m1 m2 (t.start_row + k / m2.col) (k % m2.col)) := by
    intro k hk
    rw [childMessages, cellsOf_eq, List.map_map]
    rw [List.getD_eq_getElem _ _ (by simpa using hk)]
    simp
  refine ⟨?_, hmsg, ?_⟩
  · rw [childMessages, cellsOf_eq]
    simp
  · intro k hk
    rw [hmsg k hk, atoi_intToChars, runTask_apply]
    rw [if_pos ?mem]
    case mem =>
      rw [cellsOf_eq]
      exact List.mem_map.mpr ⟨k, List.mem_range.mpr hk, rfl⟩

theorem pipe_protocol_witness :
    (childMessages m1A m2A (Task.mk 0 2)).length = taskSize (Task.mk 0 2) * m2A.col ∧
    (∀ k, k < taskSize (Task.mk 0 2) * m2A.col →
      (childMessages m1A m2A (Task.mk 0 2)).getD k [] =
        intToChars (dotFrom m1A m2A ((Task.mk 0 2).start_row + k / m2A.col) (k % m2A.col))) ∧
    (∀ k, k < taskSize (Task.mk 0 2) * m2A.col →
      runTask m1A m2A (Task.mk 0 2) dInit ((Task.mk 0 2).start_row + k / m2A.col)
          (k % m2A.col) =
        atoiChars ((childMessages m1A m2A (Task.mk 0 2)).getD k [])) :=
  pipe_protocol m1A m2A (Task.mk 0 2) dInit

/-- C9: when `m1.col ≠ m2.row`, `multiply()` reports the dimension error and
returns before allocating the result matrix, before creating any worker and
before any computation, and `write_result` is never reached, so no output
file is produced. -/
theorem dim_mismatch_aborts (m1 m2 : Matrix) (nW : Nat) (init : Nat → Nat → Int)
    (h : m1.col ≠ m2.row) :
    multiplyRun m1 m2 nW init = RunTrace.mk true false 0 false none := by
  rw [multiplyRun, if_pos h]

theorem dim_mismatch_aborts_witness :
    multiplyRun m1C m2C 2 dInit = RunTrace.mk true false 0 false none :=
  dim_mismatch_aborts m1C m2C 2 dInit (by decide)

/-- C10 counterexample: with a monotonic pair of well-formed clock readings
0.9 s and 1.1 s (true elapsed 0.2 s, floor 0 s), the code's
`endTime.tv_sec - startTime.tv_sec` reports 1, so the reported time is not
`floor(true elapsed seconds)`. -/
theorem totalTime_not_floor_cex :
    0 ≤ tsA.tv_nsec ∧ tsA.tv_nsec < 1000000000 ∧
    0 ≤ tsB.tv_nsec ∧ tsB.tv_nsec < 1000000000 ∧
    0 ≤ elapsedNs tsA tsB ∧
    totalTimeOf tsA tsB = 1 ∧ floorElapsedSec tsA tsB = 0 ∧
    totalTimeOf tsA tsB ≠ floorElapsedSec tsA tsB := by
  refine ⟨by decide, by decide, by decide, by decide, by decide, by decide,
    by decide, by decide⟩

/-- C10 (amended): the reported time is the difference of the two `tv_sec`
fields; for well-formed clock readings this equals the true elapsed time
rounded down to whole seconds when `end.tv_nsec ≥ start.tv_nsec`, and one
more than that otherwise. -/
theorem totalTime_seconds_field (s e : Timespec)
    (hs1 : 0 ≤ s.tv_nsec) (hs2 : s.tv_nsec < 1000000000)
    (he1 : 0 ≤ e.tv_nsec) (he2 : e.tv_nsec < 1000000000) :
    totalTimeOf s e =
      floorElapsedSec s e + (if e.tv_nsec < s.tv_nsec then 1 else 0) := by
  rw [totalTimeOf, floorElapsedSec, elapsedNs]
  by_cases h : e.tv_nsec < s.tv_nsec
  · rw [if_pos h]
    omega
  · rw [if_neg h]
    omega

theorem totalTime_seconds_field_witness :
    totalTimeOf tsC tsD =
      floorElapsedSec tsC tsD + (if tsD.tv_nsec < tsC.tv_nsec then 1 else 0) :=
  totalTime_seconds_field tsC tsD (by decide) (by decide) (by decide) (by decide)

end MT
